import Mathlib

/-!
Verification of the keypiano core: a shallow embedding of the MIDI codec
(`src/services/midiIO.ts`, which contains two concatenated revisions: a
library-backed one and a hand-rolled binary one), the audio engine
(`src/services/audioEngine.ts`) and the playback scheduler
(`src/App.tsx` and its audio-clock revision in `src/unnamed/part_010`).

Modelling conventions:
* JavaScript numbers are modelled as `ℚ` (all arithmetic appearing in the
  verified paths is exact at the inputs considered) and byte/tick values as
  `ℕ`/`ℤ`.  The 32-bit bitwise operations in the VLQ writer are modelled with
  exact naturals; for the values the theorems quantify over (below `2 ^ 28`)
  the JavaScript results never leave the exact range, so no `% 2 ^ 32`
  truncation point is reachable.
* `Array.prototype.sort` (stable since ES2019) is modelled as a stable
  insertion sort: each element of the input, in order, is inserted in front
  of the first already-placed element that the comparator says it must
  precede.
* Stateful code is modelled by explicit state passing; the scheduler loops,
  which are driven by timer callbacks, become step functions taking the
  current audio-clock reading as an argument, and a trace of callbacks is a
  list of actions folded over the state.
-/

namespace Keypiano

/-- The `NOTE_NAMES` table from `src/constants.ts` / `midiIO.ts`: the twelve
sharp-form pitch-class names, C first. -/
def noteNames : List String :=
  ["C", "C#", "D", "D#", "E", "F"] ++ ["F#", "G", "G#", "A", "A#", "B"]

/-- The `midiToNote` helper from `midiIO.ts`: MIDI number to note name, with
`octave = floor(midi / 12) - 1` and `nameIdx = midi % 12`. -/
def midiToNote (midi : ℕ) : String :=
  let octave : ℤ := (midi : ℤ) / 12 - 1
  let nameIdx := midi % 12
  (noteNames.getD nameIdx "") ++ toString octave

/-- The `NOTE_TO_MIDI` record built by `initNotes` in the hand-rolled
`midiIO.ts`: defined for exactly the 128 names produced by `midiToNote`. -/
def noteToMidiTable (s : String) : Option ℕ :=
  (List.range 128).find? (fun i => midiToNote i = s)

/-- The event kind of an `AppEvent` (`type: 'on' | 'off'`). -/
inductive EvType where
  | on : EvType
  | off : EvType
deriving DecidableEq, Repr

/-- The `AppEvent` from `midiIO.ts` (the `instrumentId` field is carried but never
inspected by the verified code paths, so it is omitted). -/
structure AppEvent where
  time : ℚ
  type : EvType
  note : String
  transpose : ℤ
  velocity : Option ℕ := none
deriving DecidableEq, Repr

/-! ### Stable sort (model of `Array.prototype.sort`) -/

/-- Insert `x` in front of the first element `y` with `lt x y`; `lt a b`
stands for "the comparator returns a negative number on `(a, b)`".  Keeping
`x` behind every element it does not strictly precede makes the sort stable,
matching the ES2019 guarantee. -/
def jsInsert (lt : α → α → Bool) (x : α) : List α → List α
  | [] => [x]
  | y :: ys => if lt x y then x :: y :: ys else y :: jsInsert lt x ys

/-- Stable sort: fold the input, in order, into an accumulator via
`jsInsert`. -/
def jsSort (lt : α → α → Bool) (l : List α) : List α :=
  l.foldl (fun acc x => jsInsert lt x acc) []

theorem mem_jsInsert {lt : α → α → Bool} {x a : α} {l : List α} :
    a ∈ jsInsert lt x l ↔ a = x ∨ a ∈ l := by
  induction l with
  | nil => simp [jsInsert]
  | cons y ys ih =>
    by_cases h : lt x y
    · simp [jsInsert, h]
    · simp [jsInsert, h, ih]
      tauto

/-! ### Variable-length quantities (`writeVarInt` / `readVarInt`) -/

/-- The packing loop of `writeVarInt`:
`while ((value >>= 7)) { buffer <<= 8; buffer |= ((value & 0x7F) | 0x80); }`.
The shift-assignment happens in the loop condition, so the body reads the
already-shifted value. -/
def wviPack (value buffer : ℕ) : ℕ :=
  if h : value / 128 = 0 then buffer
  else wviPack (value / 128) (buffer * 256 + ((value / 128) % 128 + 128))
termination_by value
decreasing_by
  exact Nat.div_lt_self (Nat.pos_of_ne_zero (by omega)) (by omega)

/-- The emission loop of `writeVarInt`:
`while (true) { bytes.push(buffer & 0xFF); if (buffer & 0x80) buffer >>= 8; else break; }`. -/
def wviEmit (buffer : ℕ) : List ℕ :=
  if h : buffer % 256 < 128 then [buffer % 256]
  else (buffer % 256) :: wviEmit (buffer / 256)
termination_by buffer
decreasing_by
  refine Nat.div_lt_self (Nat.pos_of_ne_zero ?_) (by omega)
  intro hz
  simp [hz] at h

/-- The `writeVarInt` from the hand-rolled `midiIO.ts`. -/
def writeVarInt (value : ℕ) : List ℕ :=
  wviEmit (wviPack value (value % 128))

/-- The accumulating do-while loop of `readVarInt`:
`do { byte = view.getUint8(offset + length); result = (result << 7) | (byte & 0x7f); length++; } while (byte & 0x80)`.
Reading past the end of the buffer throws in JavaScript; that is modelled as
`none`. -/
def rviAcc (acc : ℕ) : List ℕ → Option (ℕ × ℕ)
  | [] => none
  | b :: rest =>
    if b % 256 < 128 then some (acc * 128 + b % 128, 1)
    else (rviAcc (acc * 128 + b % 128) rest).map (fun p => (p.1, p.2 + 1))

/-- The `readVarInt` from the hand-rolled `midiIO.ts`, reading from the start of
the given byte list and returning `(value, bytesConsumed)`. -/
def readVarInt (bytes : List ℕ) : Option (ℕ × ℕ) :=
  rviAcc 0 bytes

/-- Proof-side description of the continuation bytes of a VLQ: the base-128
digits of `w`, most significant first, each with the `0x80` bit set. -/
def vlqCont (w : ℕ) : List ℕ :=
  if h : w = 0 then []
  else vlqCont (w / 128) ++ [w % 128 + 128]
termination_by w
decreasing_by
  exact Nat.div_lt_self (Nat.pos_of_ne_zero h) (by omega)

theorem wviEmit_small {b : ℕ} (h : b < 128) : wviEmit b = [b] := by
  rw [wviEmit]
  simp [Nat.mod_eq_of_lt (by omega : b < 256), h]

theorem wviPack_emit (value : ℕ) : ∀ buffer : ℕ,
    wviEmit (wviPack value buffer) = vlqCont (value / 128) ++ wviEmit buffer := by
  induction value using Nat.strong_induction_on with
  | _ value ih =>
    intro buffer
    by_cases h : value / 128 = 0
    · rw [wviPack, vlqCont]
      simp [h]
    · have hlt : value / 128 < value :=
        Nat.div_lt_self (Nat.pos_of_ne_zero (by omega)) (by omega)
      rw [wviPack]
      simp only [h, dite_false]
      rw [ih (value / 128) hlt]
      have hmod : (buffer * 256 + ((value / 128) % 128 + 128)) % 256
          = (value / 128) % 128 + 128 := by
        have h1 : (value / 128) % 128 < 128 := Nat.mod_lt _ (by omega)
        omega
      have hdiv : (buffer * 256 + ((value / 128) % 128 + 128)) / 256 = buffer := by
        have h1 : (value / 128) % 128 < 128 := Nat.mod_lt _ (by omega)
        omega
      have hge : ¬ (buffer * 256 + ((value / 128) % 128 + 128)) % 256 < 128 := by
        rw [hmod]; omega
      conv_lhs => rw [wviEmit, dif_neg hge]
      rw [hmod, hdiv]
      conv_rhs => rw [vlqCont]
      simp only [h, dite_false]
      simp [List.append_assoc]

/-- The `writeVarInt` produces the continuation-marked high digits followed by the
low 7 bits. -/
theorem writeVarInt_eq (value : ℕ) :
    writeVarInt value = vlqCont (value / 128) ++ [value % 128] := by
  rw [writeVarInt, wviPack_emit, wviEmit_small (Nat.mod_lt _ (by omega))]

theorem length_vlqCont : ∀ k w : ℕ, w < 128 ^ k → (vlqCont w).length ≤ k := by
  intro k
  induction k with
  | zero =>
    intro w hw
    interval_cases w
    rw [vlqCont]; simp
  | succ k ih =>
    intro w hw
    by_cases h : w = 0
    · rw [vlqCont]; simp [h]
    · rw [vlqCont]
      simp only [h, dite_false, List.length_append, List.length_singleton]
      have : w / 128 < 128 ^ k := by
        rw [Nat.div_lt_iff_lt_mul (by omega)]
        calc w < 128 ^ (k + 1) := hw
        _ = 128 ^ k * 128 := by ring
      have := ih (w / 128) this
      omega

theorem rviAcc_vlqCont (w : ℕ) : ∀ acc rest,
    rviAcc acc (vlqCont w ++ rest)
      = (rviAcc (acc * 128 ^ (vlqCont w).length + w) rest).map
          (fun p => (p.1, p.2 + (vlqCont w).length)) := by
  induction w using Nat.strong_induction_on with
  | _ w ih =>
    intro acc rest
    by_cases h : w = 0
    · rw [vlqCont]
      simp [h]
    · have hlt : w / 128 < w := Nat.div_lt_self (Nat.pos_of_ne_zero h) (by omega)
      conv_lhs => rw [vlqCont]
      simp only [h, dite_false, List.append_assoc, List.cons_append, List.nil_append]
      rw [ih (w / 128) hlt]
      have hb : ¬ (w % 128 + 128) % 256 < 128 := by
        have := Nat.mod_lt w (y := 128) (by omega)
        omega
      have hbm : (w % 128 + 128) % 128 = w % 128 := by
        have := Nat.mod_lt w (y := 128) (by omega)
        omega
      simp only [rviAcc, if_neg hb, hbm, Option.map_map]
      have hlen : (vlqCont w).length = (vlqCont (w / 128)).length + 1 := by
        conv_lhs => rw [vlqCont]
        simp [h]
      rw [hlen]
      have harith : (acc * 128 ^ (vlqCont (w / 128)).length + w / 128) * 128 + w % 128
          = acc * 128 ^ ((vlqCont (w / 128)).length + 1) + w := by
        have hdm := Nat.div_add_mod w 128
        rw [pow_succ]
        nlinarith [hdm]
      rw [harith]
      cases rviAcc (acc * 128 ^ ((vlqCont (w / 128)).length + 1) + w) rest with
      | none => simp
      | some p =>
        simp only [Option.map_some', Function.comp_apply, Option.some_inj,
          Prod.mk.injEq]
        exact ⟨trivial, by omega⟩

/-- C7. VLQ round trip: for every `v < 2 ^ 28` (MIDI's legal VLQ range),
decoding the bytes written by `writeVarInt` returns `v` and consumes exactly
the bytes written, and the encoding is at most 4 bytes long. -/
theorem vlq_roundTrip (v : ℕ) (hv : v < 2 ^ 28) :
    readVarInt (writeVarInt v) = some (v, (writeVarInt v).length)
      ∧ (writeVarInt v).length ≤ 4 := by
  have hrepr := writeVarInt_eq v
  constructor
  · rw [readVarInt, hrepr, rviAcc_vlqCont]
    have hsmall : v % 128 % 256 < 128 := by
      have hm : v % 128 < 128 := Nat.mod_lt _ (by omega)
      omega
    simp only [rviAcc, if_pos hsmall, Option.map_some', Option.some_inj,
      Prod.mk.injEq, List.length_append, List.length_singleton,
      Nat.zero_mul, Nat.zero_add]
    constructor <;> omega
  · rw [hrepr]
    simp only [List.length_append, List.length_singleton]
    have : v / 128 < 128 ^ 3 := by omega
    have := length_vlqCont 3 (v / 128) this
    omega

/-- Witness for C7 at the concrete value 240 (the delta of the spec's
scenario): its encoding is the two bytes `0x81 0x70`, which decode back to
240. -/
theorem vlq_roundTrip_witness :
    ((240 : ℕ) < 2 ^ 28
        ∧ readVarInt (writeVarInt 240) = some (240, (writeVarInt 240).length)
        ∧ (writeVarInt 240).length ≤ 4)
      ∧ writeVarInt 240 = [129, 112]
      ∧ readVarInt [129, 112] = some (240, 2) := by
  have h240 : (240 : ℕ) < 2 ^ 28 := by norm_num
  have h := vlq_roundTrip 240 h240
  have h0 : vlqCont 0 = [] := by
    rw [vlqCont]
    simp
  have h1 : vlqCont 1 = [129] := by
    rw [vlqCont]
    norm_num [h0]
  have hw : writeVarInt 240 = [129, 112] := by
    rw [writeVarInt_eq]
    norm_num [h1]
  exact ⟨⟨h240, h.1, h.2⟩, hw, by rfl⟩

/-! ### The note-name pattern `([A-G][#b]?)(-?\d+)`

`noteToMidi` (library-backed `midiIO.ts`) and `getNoteNumber`
(`audioEngine.ts`) both run `note.match(/([A-G][#b]?)(-?\d+)/)`: an
unanchored search returning the leftmost match, with the optional accidental
tried greedily and given up if no digit group can follow it. -/

/-- The `[A-G]`. -/
def isNoteLetter (c : Char) : Bool := 'A' ≤ c && c ≤ 'G'

/-- The `[#b]`. -/
def isAcc (c : Char) : Bool := c = '#' || c = 'b'

/-- Greedy `\d+` at the head of the input: the maximal nonempty digit run. -/
def digitsTok : List Char → Option String
  | [] => none
  | c :: rest =>
    if c.isDigit then some (String.mk (c :: rest.takeWhile Char.isDigit)) else none

/-- The `-?\d+` at the head of the input (a lone `-` never helps, because `\d+`
then has to start at the `-` itself and fails). -/
def numTok : List Char → Option String
  | [] => none
  | c :: rest =>
    if c = '-' then (digitsTok rest).map (fun s => "-" ++ s)
    else digitsTok (c :: rest)

/-- Try the whole pattern at the current position, with the regex's
backtracking: accidental first, and if no number group can follow it, the
bare letter. Returns the two capture groups. -/
def tryHere : List Char → Option (String × String)
  | [] => none
  | c :: rest =>
    if isNoteLetter c then
      match rest with
      | a :: rest2 =>
        if isAcc a then
          match numTok rest2 with
          | some ds => some (String.mk [c, a], ds)
          | none => (numTok rest).map (fun ds => (String.mk [c], ds))
        else (numTok rest).map (fun ds => (String.mk [c], ds))
      | [] => none
    else none

/-- The `String.prototype.match` without the `g` flag: scan left to right, return
the first position where the pattern matches. -/
def findNoteMatch : List Char → Option (String × String)
  | [] => none
  | c :: rest =>
    match tryHere (c :: rest) with
    | some m => some m
    | none => findNoteMatch rest

/-- Digit run to number (the octave strings fed to `parseInt` are pure
digit runs with an optional sign, where `parseInt` is exact). -/
def digitsToNat (l : List Char) : ℕ :=
  l.foldl (fun acc c => acc * 10 + (c.toNat - 48)) 0

/-- The `parseInt` on a `-?\d+` string. -/
def parseIntSigned (s : String) : ℤ :=
  match s.data with
  | '-' :: rest => -(digitsToNat rest : ℤ)
  | l => (digitsToNat l : ℤ)

/-- The flat-to-sharp record `{'Db':'C#','Eb':'D#','Gb':'F#','Ab':'G#','Bb':'A#'}`;
a name that is not a key of the record is left unchanged. -/
def flatToSharp (name : String) : String :=
  if name = "Db" then "C#"
  else if name = "Eb" then "D#"
  else if name = "Gb" then "F#"
  else if name = "Ab" then "G#"
  else if name = "Bb" then "A#"
  else name

/-- The `Array.prototype.indexOf`: index of the first occurrence, `-1` if absent. -/
def jsIndexOf (l : List String) (s : String) : ℤ :=
  match l.findIdx? (fun x => x = s) with
  | some i => (i : ℤ)
  | none => -1

/-- The `noteToMidi` from the library-backed `midiIO.ts`: parse failure falls back
to 60 (middle C); otherwise `(octave + 1) * 12 + NOTE_NAMES.indexOf(name)`
after flat canonicalization. -/
def noteToMidi (s : String) : ℤ :=
  match findNoteMatch s.data with
  | none => 60
  | some (name, octStr) =>
    (parseIntSigned octStr + 1) * 12 + jsIndexOf noteNames (flatToSharp name)

/-- The `name.endsWith('b')` modelled over the character list. -/
def strEndsWithB (s : String) : Bool :=
  match s.data.getLast? with
  | some c => c = 'b'
  | none => false

/-- The `getNoteNumber` from `audioEngine.ts`: parse failure yields 0; flats are
canonicalized only when the name ends in `b`; result is
`octave * 12 + index + 12`. -/
def getNoteNumber (s : String) : ℤ :=
  match findNoteMatch s.data with
  | none => 0
  | some (name, octStr) =>
    let name2 := if strEndsWithB name then flatToSharp name else name
    parseIntSigned octStr * 12 + jsIndexOf noteNames name2 + 12

/-- Spec-side reading of the pattern: the head of `rest` starts the `-?\d+`
group. -/
def headIsDigit : List Char → Bool
  | [] => false
  | d :: _ => d.isDigit

/-- Spec-side reading of `-?\d+` starting here. -/
def numStartB : List Char → Bool
  | [] => false
  | c :: rest => c.isDigit || (c = '-' && headIsDigit rest)

/-- Spec-side reading of the full pattern `([A-G][#b]?)(-?\d+)` matching at
the current position: a note letter, then either an accidental followed by a
number group, or a number group directly. -/
def matchesHere : List Char → Bool
  | [] => false
  | c :: rest =>
    isNoteLetter c &&
      ((match rest with
        | a :: rest2 => isAcc a && numStartB rest2
        | [] => false) || numStartB rest)

theorem digitsTok_eq_none {l : List Char} :
    digitsTok l = none ↔ headIsDigit l = false := by
  cases l with
  | nil => simp [digitsTok, headIsDigit]
  | cons c rest =>
    by_cases h : c.isDigit <;> simp [digitsTok, headIsDigit, h]

theorem numTok_eq_none {l : List Char} :
    numTok l = none ↔ numStartB l = false := by
  cases l with
  | nil => simp [numTok, numStartB]
  | cons c rest =>
    by_cases h : c = '-'
    · have hd : ¬ Char.isDigit '-' := by decide
      simp [numTok, numStartB, h, digitsTok_eq_none, hd]
    · simp only [numTok, if_neg h, numStartB, digitsTok_eq_none]
      simp [headIsDigit, h]

theorem tryHere_eq_none {l : List Char} :
    tryHere l = none ↔ matchesHere l = false := by
  cases l with
  | nil => simp [tryHere, matchesHere]
  | cons c rest =>
    by_cases hc : isNoteLetter c
    · cases rest with
      | nil => simp [tryHere, matchesHere, hc, numStartB]
      | cons a rest2 =>
        by_cases ha : isAcc a
        · cases hnum : numTok rest2 with
          | some ds =>
            have : numStartB rest2 = true := by
              by_contra hfalse
              rw [(numTok_eq_none).2 (by simpa using hfalse)] at hnum
              exact Option.noConfusion hnum
            simp [tryHere, matchesHere, hc, ha, hnum, this]
          | none =>
            have h2 : numStartB rest2 = false := (numTok_eq_none).1 hnum
            simp [tryHere, matchesHere, hc, ha, hnum, h2, numTok_eq_none]
        · simp [tryHere, matchesHere, hc, ha, numTok_eq_none]
    · simp [tryHere, matchesHere, hc]

theorem findNoteMatch_eq_none (s : List Char)
    (h : ∀ n, n ≤ s.length → matchesHere (s.drop n) = false) :
    findNoteMatch s = none := by
  induction s with
  | nil => rfl
  | cons c rest ih =>
    have h0 : matchesHere (c :: rest) = false := by
      simpa using h 0 (by omega)
    rw [findNoteMatch, (tryHere_eq_none).2 h0]
    exact ih (fun n hn => by simpa using h (n + 1) (by simpa using hn))

/-- C8. Any input string in which the pattern `([A-G][#b]?)(-?\d+)`
matches at no position makes `noteToMidi` return the default pitch 60
("C4") instead of failing. -/
theorem noteToMidi_default_on_parse_failure (s : String)
    (h : ∀ n, n ≤ s.data.length → matchesHere (s.data.drop n) = false) :
    noteToMidi s = 60 := by
  rw [noteToMidi, findNoteMatch_eq_none s.data h]

/-- Witness for C8 at the concrete non-note string "hello". -/
theorem noteToMidi_default_on_parse_failure_witness :
    (∀ n, n ≤ "hello".data.length → matchesHere ("hello".data.drop n) = false)
      ∧ noteToMidi "hello" = 60 := by
  refine ⟨by decide, noteToMidi_default_on_parse_failure "hello" (by decide)⟩

/-! ### The hand-rolled binary decoder (`parseMidiFile`, second revision of
`midiIO.ts`) -/

/-- The `DataView.getUint8`: reading past the end throws a `RangeError`. -/
def readU8 (l : List ℕ) (i : ℕ) : Except String ℕ :=
  match l.get? i with
  | some b => .ok b
  | none => .error "RangeError"

/-- The `DataView.getUint16` (big-endian). -/
def readU16 (l : List ℕ) (i : ℕ) : Except String ℕ := do
  let b0 ← readU8 l i
  let b1 ← readU8 l (i + 1)
  pure (b0 * 256 + b1)

/-- The `DataView.getUint32` (big-endian). -/
def readU32 (l : List ℕ) (i : ℕ) : Except String ℕ := do
  let b0 ← readU8 l i
  let b1 ← readU8 l (i + 1)
  let b2 ← readU8 l (i + 2)
  let b3 ← readU8 l (i + 3)
  pure (((b0 * 256 + b1) * 256 + b2) * 256 + b3)

/-- The `readVarInt(view, offset)`: the do-while loop reads relative to `offset`. -/
def readVarIntAt (l : List ℕ) (i : ℕ) : Except String (ℕ × ℕ) :=
  match readVarInt (l.drop i) with
  | some p => .ok p
  | none => .error "RangeError"

/-- The `MIDI_TO_NOTE[note] || 'C4'`: the record holds names for 0..127 only. -/
def midiToNoteLookup (n : ℕ) : String :=
  if n < 128 then midiToNote n else "C4"

/-- One track's event `while (cursor < endOfTrack)` loop.  State threaded
exactly as in the source: `cursor`, `currentTimeTicks`, `currentTimeMs`,
the running-status byte, the (file-global) `usPerBeat`, and the shared event
array.  Every iteration consumes at least the one delta byte, so a fuel of
`trackLen + 1` can never be exhausted before `endOfTrack`. -/
def trackLoop (l : List ℕ) (ppq endOfTrack : ℕ) :
    ℕ → ℕ → ℕ → ℚ → ℕ → ℕ → List AppEvent →
    Except String (List AppEvent × ℕ × ℕ)
  | 0, cursor, _, _, _, usPerBeat, acc =>
    if cursor < endOfTrack then .error "loop bound exhausted"
    else .ok (acc, usPerBeat, cursor)
  | fuel + 1, cursor, ticks, ms, lastStatus, usPerBeat, acc =>
    if cursor < endOfTrack then do
      let (deltaTicks, deltaLen) ← readVarIntAt l cursor
      let cursor := cursor + deltaLen
      let ticks := ticks + deltaTicks
      let ms := ms + ((deltaTicks * usPerBeat : ℕ) : ℚ) / ((ppq * 1000 : ℕ) : ℚ)
      let b ← readU8 l cursor
      let (status, cursor, lastStatus) :=
        if 128 ≤ b then (b, cursor + 1, b) else (lastStatus, cursor, lastStatus)
      let eventType := status / 16
      if eventType = 8 then do
        let note ← readU8 l cursor
        let vel ← readU8 l (cursor + 1)
        let ev : AppEvent := ⟨ms, .off, midiToNoteLookup note, 0, some vel⟩
        trackLoop l ppq endOfTrack fuel (cursor + 2) ticks ms lastStatus usPerBeat
          (acc ++ [ev])
      else if eventType = 9 then do
        let note ← readU8 l cursor
        let vel ← readU8 l (cursor + 1)
        let ev : AppEvent :=
          if vel = 0 then ⟨ms, .off, midiToNoteLookup note, 0, some 0⟩
          else ⟨ms, .on, midiToNoteLookup note, 0, some vel⟩
        trackLoop l ppq endOfTrack fuel (cursor + 2) ticks ms lastStatus usPerBeat
          (acc ++ [ev])
      else if eventType = 15 then
        if status = 255 then do
          let ty ← readU8 l cursor
          let cursor := cursor + 1
          let (len, lenBytes) ← readVarIntAt l cursor
          let cursor := cursor + lenBytes
          let usPerBeat ←
            if ty = 81 then do
              let m0 ← readU8 l cursor
              let m1 ← readU8 l (cursor + 1)
              let m2 ← readU8 l (cursor + 2)
              pure ((m0 * 256 + m1) * 256 + m2)
            else pure usPerBeat
          trackLoop l ppq endOfTrack fuel (cursor + len) ticks ms lastStatus usPerBeat acc
        else
          trackLoop l ppq endOfTrack fuel (cursor + 1) ticks ms lastStatus usPerBeat acc
      else
        if eventType = 12 ∨ eventType = 13 then
          trackLoop l ppq endOfTrack fuel (cursor + 1) ticks ms lastStatus usPerBeat acc
        else
          trackLoop l ppq endOfTrack fuel (cursor + 2) ticks ms lastStatus usPerBeat acc
    else .ok (acc, usPerBeat, cursor)

/-- The per-track `for` loop of `parseMidiFile`: the four id bytes are read
(and may throw) but not validated; `usPerBeat` carries over between tracks. -/
def tracksLoop (l : List ℕ) (ppq : ℕ) :
    ℕ → ℕ → ℕ → List AppEvent → Except String (List AppEvent)
  | 0, _, _, acc => .ok acc
  | t + 1, cursor, usPerBeat, acc => do
    let _ ← readU8 l cursor
    let _ ← readU8 l (cursor + 1)
    let _ ← readU8 l (cursor + 2)
    let _ ← readU8 l (cursor + 3)
    let trackLen ← readU32 l (cursor + 4)
    let cursor := cursor + 8
    let r ← trackLoop l ppq (cursor + trackLen) (trackLen + 1) cursor 0 0 0 usPerBeat acc
    tracksLoop l ppq t r.2.2 r.2.1 r.1

/-- Comparator of the hand-rolled decoder's final merge sort:
`(a, b) => a.time - b.time` — time only, no tie-break. -/
def evLtTime (a b : AppEvent) : Bool := decide (a.time < b.time)

/-- The `parseMidiFile` from the hand-rolled `midiIO.ts`. -/
def parseMidiFile (l : List ℕ) : Except String (List AppEvent) := do
  let h0 ← readU8 l 0
  let h1 ← readU8 l 1
  let h2 ← readU8 l 2
  let h3 ← readU8 l 3
  if h0 = 77 ∧ h1 = 84 ∧ h2 = 104 ∧ h3 = 100 then do
    let _format ← readU16 l 8
    let numTracks ← readU16 l 10
    let timeDivision ← readU16 l 12
    let ppq := if timeDivision < 32768 then timeDivision else 480
    let events ← tracksLoop l ppq numTracks 14 500000 []
    pure (jsSort evLtTime events)
  else .error "Invalid MIDI header"

/-- The concrete file of the spec's scenario: `MThd`, format 0, one track,
PPQ 480; track: delta 0, Note-On(60, 100); delta 240, Note-Off(60, 0);
End-of-Track. -/
def scenarioBytes : List ℕ :=
  [77, 84, 104, 100, 0, 0, 0, 6, 0, 0, 0, 1, 1, 224,
   77, 84, 114, 107, 0, 0, 0, 13,
   0, 144, 60, 100,
   129, 112, 128, 60, 0,
   0, 255, 47, 0]

/-- C6. Decoding the spec's concrete byte input yields exactly
`[{t=0, On, "C4", vel 100}, {t=250, Off, "C4"}]`: 240 ticks at the default
120 BPM with PPQ 480 convert to 250 ms. -/
theorem parse_scenario :
    parseMidiFile scenarioBytes =
      .ok [⟨0, .on, "C4", 0, some 100⟩, ⟨250, .off, "C4", 0, some 0⟩] := by
  with_unfolding_all rfl

/-! ### Tie-break behaviour of the two decoders (C3) -/

/-- A file whose single track holds a Note-On(60) and then a Note-Off(64),
both at delta 0 (identical timestamps), then End-of-Track. -/
def tieBytes : List ℕ :=
  [77, 84, 104, 100, 0, 0, 0, 6, 0, 0, 0, 1, 1, 224,
   77, 84, 114, 107, 0, 0, 0, 12,
   0, 144, 60, 100,
   0, 128, 64, 0,
   0, 255, 47, 0]

/-- C3, counterexample. The hand-rolled decoder sorts by time only
(stable, so stream order is kept at ties): decoding `tieBytes` returns the
NoteOn *before* the NoteOff although both carry timestamp 0, contradicting
the claim that every decoded file has NoteOff placed first at identical
timestamps. -/
theorem parse_tie_on_before_off :
    parseMidiFile tieBytes =
        .ok [⟨0, .on, "C4", 0, some 100⟩, ⟨0, .off, "E4", 0, some 0⟩]
      ∧ ((parseMidiFile tieBytes).toOption.getD []).get? 0
          = some ⟨0, .on, "C4", 0, some 100⟩
      ∧ ((parseMidiFile tieBytes).toOption.getD []).get? 1
          = some ⟨0, .off, "E4", 0, some 0⟩ := by
  refine ⟨by with_unfolding_all rfl, ?_, ?_⟩ <;> with_unfolding_all rfl

/-- The `0` for `'off'`, `1` for `'on'`: the tie-break ranks of the library-backed
decoder's comparator. -/
def typeRank (e : AppEvent) : ℕ :=
  match e.type with
  | .off => 0
  | .on => 1

/-- Comparator of the library-backed decoder's sort (`midiIO.ts`, first
revision): within 0.1 ms the event types are compared (Off first), otherwise
the times. `evLt1 a b` is "the comparator is negative on `(a, b)`". -/
def evLt1 (a b : AppEvent) : Bool :=
  if |a.time - b.time| < 1 / 10 then decide (typeRank a < typeRank b)
  else decide (a.time < b.time)

/-- The final sort of the library-backed decoder. -/
def sortEvents1 (l : List AppEvent) : List AppEvent := jsSort evLt1 l

/-- Strict lexicographic order on (time, rank); on inputs whose distinct
timestamps are at least 0.1 ms apart, `evLt1` computes exactly this order. -/
def keyLt (a b : AppEvent) : Prop :=
  a.time < b.time ∨ (a.time = b.time ∧ typeRank a < typeRank b)

/-- Timestamps pairwise either equal or at least 0.1 ms apart: under this
separation the comparator is a genuine total preorder. -/
def Sep (a b : AppEvent) : Prop :=
  a.time = b.time ∨ 1 / 10 ≤ |a.time - b.time|

theorem evLt1_iff_keyLt {a b : AppEvent} (h : Sep a b) :
    evLt1 a b = true ↔ keyLt a b := by
  rcases h with h | h
  · have habs : |a.time - b.time| < 1 / 10 := by
      rw [h, sub_self, abs_zero]
      norm_num
    rw [evLt1, if_pos habs]
    simp only [decide_eq_true_eq, keyLt]
    constructor
    · intro hr
      exact Or.inr ⟨h, hr⟩
    · rintro (hlt | ⟨_, hr⟩)
      · exact absurd h (ne_of_lt hlt)
      · exact hr
  · have habs : ¬ |a.time - b.time| < 1 / 10 := not_lt.2 h
    have hne : a.time ≠ b.time := by
      intro he
      rw [he, sub_self, abs_zero] at h
      linarith
    rw [evLt1, if_neg habs]
    simp only [decide_eq_true_eq, keyLt]
    constructor
    · exact Or.inl
    · rintro (hlt | ⟨he, _⟩)
      · exact hlt
      · exact absurd he hne

theorem keyLt_trans {a b c : AppEvent} (h1 : keyLt a b) (h2 : keyLt b c) :
    keyLt a c := by
  rcases h1 with h1 | ⟨h1e, h1r⟩ <;> rcases h2 with h2 | ⟨h2e, h2r⟩
  · exact Or.inl (lt_trans h1 h2)
  · exact Or.inl (h2e ▸ h1)
  · exact Or.inl (h1e ▸ h2)
  · exact Or.inr ⟨h1e.trans h2e, lt_trans h1r h2r⟩

theorem keyLt_asymm {a b : AppEvent} (h : keyLt a b) : ¬ keyLt b a := by
  rcases h with h | ⟨he, hr⟩
  · rintro (h2 | ⟨h2e, _⟩)
    · exact absurd (lt_trans h h2) (lt_irrefl _)
    · exact absurd h2e.symm (ne_of_lt h)
  · rintro (h2 | ⟨_, h2r⟩)
    · exact absurd (he ▸ h2) (lt_irrefl _)
    · exact absurd (lt_trans hr h2r) (lt_irrefl _)

/-- Inserting into a list that is sorted for the comparator keeps it sorted,
provided all elements involved are pairwise separated. -/
theorem pairwise_jsInsert_evLt1 (l : List AppEvent) (x : AppEvent)
    (hsep : ∀ a ∈ x :: l, ∀ b ∈ x :: l, Sep a b)
    (hl : l.Pairwise (fun a b => evLt1 b a = false)) :
    (jsInsert evLt1 x l).Pairwise (fun a b => evLt1 b a = false) := by
  induction l with
  | nil => simp [jsInsert]
  | cons y ys ih =>
    have hxy : Sep x y := hsep x (by simp) y (by simp)
    rcases List.pairwise_cons.1 hl with ⟨hy, hys⟩
    by_cases hlt : evLt1 x y = true
    · rw [jsInsert, if_pos hlt]
      refine List.pairwise_cons.2 ⟨?_, hl⟩
      intro z hz
      rcases List.mem_cons.1 hz with rfl | hz'
      · have := (evLt1_iff_keyLt hxy).1 hlt
        by_contra hcon
        have hzx : evLt1 z x = true := by
          cases hcase : evLt1 z x
          · exact absurd hcase hcon
          · rfl
        have hsxz : Sep z x := hsep z (by simp) x (by simp)
        exact keyLt_asymm this ((evLt1_iff_keyLt hsxz).1 hzx)
      · by_contra hcon
        have hzx : evLt1 z x = true := by
          cases hcase : evLt1 z x
          · exact absurd hcase hcon
          · rfl
        have hsxz : Sep z x := hsep z (by simp [hz']) x (by simp)
        have hsyz : Sep z y := hsep z (by simp [hz']) y (by simp)
        have h1 : keyLt z x := (evLt1_iff_keyLt hsxz).1 hzx
        have h2 : keyLt x y := (evLt1_iff_keyLt hxy).1 hlt
        have h3 : keyLt z y := keyLt_trans h1 h2
        have h4 : evLt1 z y = false := hy z hz'
        rw [(evLt1_iff_keyLt hsyz).2 h3] at h4
        exact Bool.noConfusion h4
    · have hlt' : evLt1 x y = false := by
        cases hcase : evLt1 x y
        · rfl
        · exact absurd hcase hlt
      rw [jsInsert, if_neg (by simp [hlt'])]
      refine List.pairwise_cons.2 ⟨?_, ?_⟩
      · intro z hz
        rcases mem_jsInsert.1 hz with rfl | hz'
        · exact hlt'
        · exact hy z hz'
      · refine ih ?_ hys
        intro a ha b hb
        have ha2 : a ∈ x :: y :: ys := by
          rcases List.mem_cons.1 ha with h | h
          · exact h ▸ List.mem_cons_self _ _
          · exact List.mem_cons_of_mem _ (List.mem_cons_of_mem _ h)
        have hb2 : b ∈ x :: y :: ys := by
          rcases List.mem_cons.1 hb with h | h
          · exact h ▸ List.mem_cons_self _ _
          · exact List.mem_cons_of_mem _ (List.mem_cons_of_mem _ h)
        exact hsep a ha2 b hb2

theorem mem_jsSortAux {lt : α → α → Bool} :
    ∀ (l acc : List α) (a : α),
      a ∈ l.foldl (fun acc x => jsInsert lt x acc) acc → a ∈ l ∨ a ∈ acc := by
  intro l
  induction l with
  | nil => intro acc a ha; exact Or.inr ha
  | cons x xs ih =>
    intro acc a ha
    rcases ih (jsInsert lt x acc) a ha with h | h
    · exact Or.inl (List.mem_cons_of_mem _ h)
    · rcases mem_jsInsert.1 h with rfl | h'
      · exact Or.inl (List.mem_cons_self _ _)
      · exact Or.inr h'

theorem pairwise_sortEvents1 (l : List AppEvent)
    (hsep : ∀ a ∈ l, ∀ b ∈ l, Sep a b) :
    (sortEvents1 l).Pairwise (fun a b => evLt1 b a = false) := by
  suffices h : ∀ (t acc : List AppEvent),
      (∀ a ∈ t, a ∈ l) → (∀ a ∈ acc, a ∈ l) →
      acc.Pairwise (fun a b => evLt1 b a = false) →
      (t.foldl (fun acc x => jsInsert evLt1 x acc) acc).Pairwise
        (fun a b => evLt1 b a = false) by
    exact h l [] (fun a ha => ha) (by simp) (by simp)
  intro t
  induction t with
  | nil => intro acc _ _ hp; exact hp
  | cons x xs ih =>
    intro acc ht hacc hp
    refine ih (jsInsert evLt1 x acc) (fun a ha => ht a (List.mem_cons_of_mem _ ha))
      ?_ ?_
    · intro a ha
      rcases mem_jsInsert.1 ha with rfl | h'
      · exact ht a (List.mem_cons_self _ _)
      · exact hacc a h'
    · refine pairwise_jsInsert_evLt1 acc x ?_ hp
      intro a ha b hb
      have hmema : a ∈ l := by
        rcases List.mem_cons.1 ha with rfl | h'
        · exact ht a (List.mem_cons_self _ _)
        · exact hacc a h'
      have hmemb : b ∈ l := by
        rcases List.mem_cons.1 hb with rfl | h'
        · exact ht b (List.mem_cons_self _ _)
        · exact hacc b h'
      exact hsep a hmema b hmemb

/-- C3, amended. The library-backed decoder's sort does honour the
tie-break: whenever the input's distinct timestamps are either equal or at
least 0.1 ms apart (in particular for exact ties), no NoteOn ever precedes a
NoteOff carrying the same timestamp in its output.  (The hand-rolled
decoder, by contrast, keeps stream order at ties — see
`parse_tie_on_before_off`.) -/
theorem sortEvents1_tie_break (l : List AppEvent)
    (hsep : ∀ a ∈ l, ∀ b ∈ l, Sep a b) :
    (sortEvents1 l).Pairwise
      (fun a b => ¬ (a.time = b.time ∧ a.type = .on ∧ b.type = .off)) := by
  refine (pairwise_sortEvents1 l hsep).imp ?_
  intro a b hab
  rintro ⟨he, ha, hb⟩
  have habs : |b.time - a.time| < 1 / 10 := by
    rw [he, sub_self, abs_zero]
    norm_num
  have : evLt1 b a = true := by
    simp only [evLt1, if_pos habs, decide_eq_true_eq, typeRank, ha, hb]
    exact Nat.zero_lt_one
  rw [this] at hab
  exact Bool.noConfusion hab

/-- Witness for the amended C3 at the tie list the spec describes (a NoteOff
and a NoteOn at identical timestamps for different pitches). -/
theorem sortEvents1_tie_break_witness :
    (∀ a ∈ [(⟨0, .on, "C4", 0, some 100⟩ : AppEvent), ⟨0, .off, "E4", 0, some 0⟩],
      ∀ b ∈ [(⟨0, .on, "C4", 0, some 100⟩ : AppEvent), ⟨0, .off, "E4", 0, some 0⟩],
        Sep a b)
    ∧ (sortEvents1 [⟨0, .on, "C4", 0, some 100⟩, ⟨0, .off, "E4", 0, some 0⟩]).Pairwise
        (fun a b => ¬ (a.time = b.time ∧ a.type = .on ∧ b.type = .off)) := by
  refine ⟨?_, sortEvents1_tie_break _ ?_⟩ <;>
    · intro a ha b hb
      fin_cases ha <;> fin_cases hb <;> exact Or.inl rfl

/-! ### The encoders (`generateMidiFile`, both revisions) -/

/-- The `Math.round` (round half towards positive infinity). -/
def jsRound (q : ℚ) : ℤ := ⌊q + 1 / 2⌋

/-- The `MS_PER_TICK = 60000 / (BPM * PPQ)` with the fixed `BPM = 120`,
`PPQ = 480`. -/
def msPerTick : ℚ := 60000 / (120 * 480)

/-- The `evt.velocity || 80`: JavaScript `||` also replaces an explicit 0. -/
def jsVelocity : Option ℕ → ℕ
  | some v => if v = 0 then 80 else v
  | none => 80

/-- One iteration of the hand-rolled encoder's event loop: the delta bytes
are pushed *before* the note lookup, and an unknown note name abandons only
the rest of the iteration.  (Delta ticks are non-negative for the
chronologically sorted inputs the encoder builds.) -/
def encodeStep (st : ℚ × List ℕ) (evt : AppEvent) : ℚ × List ℕ :=
  let deltaTicks := jsRound ((evt.time - st.1) / msPerTick)
  let bytes := st.2 ++ writeVarInt deltaTicks.toNat
  match noteToMidiTable evt.note with
  | none => (evt.time, bytes)
  | some m =>
    let midiNum := (max 0 (min 127 ((m : ℤ) + evt.transpose))).toNat
    match evt.type with
    | .on => (evt.time, bytes ++ [144, midiNum, jsVelocity evt.velocity])
    | .off => (evt.time, bytes ++ [128, midiNum, 0])

/-- The track chunk body built by the hand-rolled `generateMidiFile`:
sorted events, then the End-of-Track meta event `00 FF 2F 00`. -/
def trackBytes2 (events : List AppEvent) : List ℕ :=
  ((jsSort evLtTime events).foldl encodeStep (0, [])).2 ++ [0, 255, 47, 0]

/-- Big-endian 32-bit length field. -/
def u32be (n : ℕ) : List ℕ :=
  [n / 16777216 % 256, n / 65536 % 256, n / 256 % 256, n % 256]

/-- The `generateMidiFile` from the hand-rolled `midiIO.ts`: header chunk
(format 0, one track, PPQ 480), track chunk header, track bytes. -/
def generateMidiFile2 (events : List AppEvent) : List ℕ :=
  [77, 84, 104, 100, 0, 0, 0, 6, 0, 0, 0, 1, 1, 224]
    ++ [77, 84, 114, 107] ++ u32be (trackBytes2 events).length
    ++ trackBytes2 events

/-- A note handed to the library's `track.addNote` by the library-backed
encoder. -/
structure MidiNote where
  midi : ℕ
  time : ℚ
  duration : ℚ
  velocity : ℚ
deriving DecidableEq, Repr

/-- JavaScript object property update (`pendingNotes[key] = v`). -/
def pendSet (m : List (ℤ × (ℚ × ℚ))) (k : ℤ) (v : ℚ × ℚ) : List (ℤ × (ℚ × ℚ)) :=
  if m.any (fun p => p.1 = k) then m.map (fun p => if p.1 = k then (k, v) else p)
  else m ++ [(k, v)]

/-- The `pendingNotes[key]` lookup. -/
def pendGet (m : List (ℤ × (ℚ × ℚ))) (k : ℤ) : Option (ℚ × ℚ) :=
  (m.find? (fun p => p.1 = k)).map Prod.snd

/-- The `delete pendingNotes[key]`. -/
def pendDel (m : List (ℤ × (ℚ × ℚ))) (k : ℤ) : List (ℤ × (ℚ × ℚ)) :=
  m.filter (fun p => ¬ p.1 = k)

/-- One iteration of the library-backed encoder's pairing loop
(`generateMidiFile`, first revision): `on` records a pending start keyed by
the unclamped transposed pitch, `off` emits a note only when a pending start
exists, and drops the key. -/
def encodePairsStep (st : List (ℤ × (ℚ × ℚ)) × List MidiNote) (evt : AppEvent) :
    List (ℤ × (ℚ × ℚ)) × List MidiNote :=
  let finalMidi := noteToMidi evt.note + evt.transpose
  let clamped := (max 0 (min 127 finalMidi)).toNat
  match evt.type with
  | .on =>
    (pendSet st.1 finalMidi (evt.time / 1000, (jsVelocity evt.velocity : ℚ) / 127),
     st.2)
  | .off =>
    match pendGet st.1 finalMidi with
    | none => st
    | some pending =>
      let dur := evt.time / 1000 - pending.1
      let dur := if dur ≤ 0 then 1 / 20 else dur
      (pendDel st.1 finalMidi, st.2 ++ [⟨clamped, pending.1, dur, pending.2⟩])

/-- The notes the library-backed encoder hands to the MIDI library; pending
entries left over at the end of the walk are discarded. -/
def encodePairs (events : List AppEvent) : List MidiNote :=
  ((jsSort evLtTime events).foldl encodePairsStep ([], [])).2

theorem jsInsert_perm (lt : α → α → Bool) (x : α) (l : List α) :
    List.Perm (jsInsert lt x l) (x :: l) := by
  induction l with
  | nil => exact List.Perm.refl _
  | cons y ys ih =>
    by_cases h : lt x y
    · rw [jsInsert, if_pos h]
    · rw [jsInsert, if_neg h]
      exact (ih.cons y).trans (List.Perm.swap x y ys)

theorem jsSort_perm (lt : α → α → Bool) (l : List α) :
    List.Perm (jsSort lt l) l := by
  suffices h : ∀ (t acc : List α),
      List.Perm (t.foldl (fun acc x => jsInsert lt x acc) acc) (t ++ acc) by
    simpa using h l []
  intro t
  induction t with
  | nil => intro acc; exact List.Perm.refl _
  | cons x xs ih =>
    intro acc
    have h1 := ih (jsInsert lt x acc)
    have h2 : List.Perm (xs ++ jsInsert lt x acc) (xs ++ x :: acc) :=
      List.Perm.append_left xs (jsInsert_perm lt x acc)
    have h3 : List.Perm (xs ++ x :: acc) (x :: (xs ++ acc)) := List.perm_middle
    exact (h1.trans h2).trans h3

theorem encodePairs_foldl_length (t : List AppEvent) :
    ∀ (pend : List (ℤ × (ℚ × ℚ))) (acc : List MidiNote),
      ((t.foldl encodePairsStep (pend, acc)).2).length
        ≤ acc.length + t.countP (fun e => decide (e.type = .off)) := by
  induction t with
  | nil => intro pend acc; simp
  | cons e es ih =>
    intro pend acc
    rcases he : e.type with _ | _
    · have hstep : encodePairsStep (pend, acc) e
          = (pendSet pend (noteToMidi e.note + e.transpose)
              (e.time / 1000, (jsVelocity e.velocity : ℚ) / 127), acc) := by
        rw [encodePairsStep, he]
      calc ((es.foldl encodePairsStep (encodePairsStep (pend, acc) e)).2).length
          ≤ acc.length + es.countP (fun e => decide (e.type = .off)) := by
            rw [hstep]; exact ih _ _
        _ ≤ acc.length + (e :: es).countP (fun e => decide (e.type = .off)) := by
            rw [List.countP_cons]
            omega
    · rcases hp : pendGet pend (noteToMidi e.note + e.transpose) with _ | pending
      · have hstep : encodePairsStep (pend, acc) e = (pend, acc) := by
          rw [encodePairsStep, he, hp]
        calc ((es.foldl encodePairsStep (encodePairsStep (pend, acc) e)).2).length
            ≤ acc.length + es.countP (fun e => decide (e.type = .off)) := by
              rw [hstep]; exact ih _ _
          _ ≤ acc.length + (e :: es).countP (fun e => decide (e.type = .off)) := by
              rw [List.countP_cons]
              omega
      · have hstep : (encodePairsStep (pend, acc) e).2.length = acc.length + 1 := by
          rw [encodePairsStep, he, hp]
          simp
        have hstep2 : ∀ q : List (ℤ × (ℚ × ℚ)) × List MidiNote,
            q.2.length = acc.length + 1 →
            ((es.foldl encodePairsStep q).2).length
              ≤ acc.length + 1 + es.countP (fun e => decide (e.type = .off)) := by
          rintro ⟨qp, qa⟩ hq
          have := ih qp qa
          simpa [hq] using this
        calc ((es.foldl encodePairsStep (encodePairsStep (pend, acc) e)).2).length
            ≤ acc.length + 1 + es.countP (fun e => decide (e.type = .off)) :=
              hstep2 _ hstep
          _ ≤ acc.length + (e :: es).countP (fun e => decide (e.type = .off)) := by
              rw [List.countP_cons]
              simp [he]
              omega

/-- C5, amended. The library-backed encoder emits a note only when an Off
event pairs with a pending On, so at most one note per Off event exists and a
sequence of unpaired Ons encodes no notes at all.  (The hand-rolled byte
encoder instead emits every On directly, including unpaired ones — see
`unpaired_on_emits_bytes`.) -/
theorem encodePairs_unpaired_dropped (events : List AppEvent) :
    (encodePairs events).length ≤ events.countP (fun e => decide (e.type = .off))
      ∧ ((∀ e ∈ events, e.type = .on) → encodePairs events = []) := by
  have hperm := jsSort_perm evLtTime events
  have hcount := hperm.countP_eq (fun e => decide (e.type = .off))
  have hle : (encodePairs events).length
      ≤ events.countP (fun e => decide (e.type = .off)) := by
    have h0 := encodePairs_foldl_length (jsSort evLtTime events) [] []
    rw [encodePairs]
    simp only [List.length_nil, Nat.zero_add] at h0
    omega
  refine ⟨hle, ?_⟩
  intro hall
  have hzero : events.countP (fun e => decide (e.type = .off)) = 0 := by
    rw [List.countP_eq_zero]
    intro e hee
    simp [hall e hee]
  rw [hzero] at hle
  exact List.length_eq_zero.1 (Nat.le_zero.1 hle)

/-- Witness for the amended C5: a single unpaired On encodes no notes. -/
theorem encodePairs_unpaired_dropped_witness :
    (∀ e ∈ [(⟨0, .on, "C4", 0, some 80⟩ : AppEvent)], e.type = .on)
      ∧ encodePairs [⟨0, .on, "C4", 0, some 80⟩] = [] := by
  refine ⟨by decide, (encodePairs_unpaired_dropped _).2 (by decide)⟩

theorem writeVarInt_zero : writeVarInt 0 = [0] := by
  rw [writeVarInt_eq, vlqCont]
  simp

/-- C5, counterexample. Under the hand-rolled encoder, an On event with
no matching Off *does* contribute bytes: the single unpaired On below makes
the track body `[0, 0x90, 60, 80]` + End-of-Track, versus End-of-Track alone
for the empty input — the claim's "contributes no bytes to the encoded file"
fails on this revision. -/
theorem unpaired_on_emits_bytes :
    trackBytes2 [⟨0, .on, "C4", 0, some 80⟩] = [0, 144, 60, 80, 0, 255, 47, 0]
      ∧ trackBytes2 [] = [0, 255, 47, 0] := by
  have htbl : noteToMidiTable "C4" = some 60 := by decide
  have hround : jsRound (((0 : ℚ) - 0) / msPerTick) = 0 := by
    norm_num [jsRound]
  constructor
  · show ((jsSort evLtTime [⟨0, .on, "C4", 0, some 80⟩]).foldl encodeStep (0, [])).2
        ++ [0, 255, 47, 0] = _
    have hsort : jsSort evLtTime [(⟨0, .on, "C4", 0, some 80⟩ : AppEvent)]
        = [⟨0, .on, "C4", 0, some 80⟩] := rfl
    rw [hsort]
    simp only [List.foldl_cons, List.foldl_nil]
    simp only [encodeStep, htbl, hround, writeVarInt_zero, Int.toNat_zero]
    norm_num [jsVelocity]
    decide
  · rfl

/-! ### The metronome scheduler (`audioEngine.ts`) -/

/-- The metronome state of `AudioEngine`: `nextNoteTime` (seconds on the
audio clock), `bpm`, `isMetronomePlaying`.  `scheduleAheadTime = 0.1 s`. -/
structure MetState where
  nextNoteTime : ℚ
  bpm : ℚ
  playing : Bool
deriving DecidableEq, Repr

/-- The `setBPM`: only the increment base changes. -/
def setBPM (b : ℚ) (st : MetState) : MetState := { st with bpm := b }

/-- The `while (nextNoteTime < currentTime + scheduleAheadTime)` loop of
`scheduler()`: schedules one tick at `nextNoteTime`, then
`nextNoteTime += 60 / bpm` (`nextNextNoteTime`).  The returned list holds the
audio-clock times handed to `scheduleMetronomeTick`, in order.  The loop is
run with explicit fuel (every theorem below holds for every fuel). -/
def metSchedLoop : ℕ → MetState → ℚ → List ℚ × MetState
  | 0, st, _ => ([], st)
  | fuel + 1, st, ctx =>
    if st.nextNoteTime < ctx + 1 / 10 then
      let r := metSchedLoop fuel
        { st with nextNoteTime := st.nextNoteTime + 60 / st.bpm } ctx
      (st.nextNoteTime :: r.1, r.2)
    else ([], st)

theorem metSchedLoop_head : ∀ (fuel : ℕ) (st : MetState) (ctx : ℚ) (t : ℚ),
    (metSchedLoop fuel st ctx).1[0]? = some t → t = st.nextNoteTime := by
  intro fuel st ctx t h
  cases fuel with
  | zero => simp [metSchedLoop] at h
  | succ fuel =>
    rw [metSchedLoop] at h
    by_cases hc : st.nextNoteTime < ctx + 1 / 10
    · rw [if_pos hc] at h
      simp at h
      linarith [h]
    · rw [if_neg hc] at h
      simp at h

theorem metSchedLoop_consecutive : ∀ (fuel : ℕ) (st : MetState) (ctx : ℚ)
    (i : ℕ) (t1 t2 : ℚ),
    (metSchedLoop fuel st ctx).1[i]? = some t1 →
    (metSchedLoop fuel st ctx).1[i + 1]? = some t2 →
    t2 = t1 + 60 / st.bpm := by
  intro fuel
  induction fuel with
  | zero => intro st ctx i t1 t2 h1 _; simp [metSchedLoop] at h1
  | succ fuel ih =>
    intro st ctx i t1 t2 h1 h2
    rw [metSchedLoop] at h1 h2
    by_cases hc : st.nextNoteTime < ctx + 1 / 10
    · rw [if_pos hc] at h1 h2
      cases i with
      | zero =>
        simp at h1 h2
        have h3 := metSchedLoop_head fuel
          { st with nextNoteTime := st.nextNoteTime + 60 / st.bpm } ctx t2 h2
        rw [h3, ← h1]
      | succ i =>
        simp only [List.getElem?_cons_succ] at h1 h2
        exact ih { st with nextNoteTime := st.nextNoteTime + 60 / st.bpm }
          ctx i t1 t2 h1 h2
    · rw [if_neg hc] at h1
      simp at h1

/-- C9. While the metronome runs, `setBPM` re-anchors nothing: the
pending tick time is unchanged (so every tick already scheduled keeps its
fire time, and the next tick fires where the old grid put it), and every
subsequently computed tick advances by exactly `60 / newBpm` seconds from
the previous one. -/
theorem metronome_setBPM_no_reanchor (st : MetState) (b ctx : ℚ) (fuel : ℕ) :
    (setBPM b st).nextNoteTime = st.nextNoteTime
      ∧ (∀ t, (metSchedLoop fuel (setBPM b st) ctx).1[0]? = some t →
          t = st.nextNoteTime)
      ∧ (∀ i t1 t2,
          (metSchedLoop fuel (setBPM b st) ctx).1[i]? = some t1 →
          (metSchedLoop fuel (setBPM b st) ctx).1[i + 1]? = some t2 →
          t2 = t1 + 60 / b) := by
  refine ⟨rfl, ?_, ?_⟩
  · intro t h
    exact metSchedLoop_head fuel (setBPM b st) ctx t h
  · intro i t1 t2 h1 h2
    exact metSchedLoop_consecutive fuel (setBPM b st) ctx i t1 t2 h1 h2

/-- Witness for C9 at a concrete run: `nextNoteTime = 0`, bpm changed from 60
to 120, clock at 0.9 s: the loop emits ticks at 0 and 1/2, spaced by
`60 / 120`. -/
theorem metronome_setBPM_no_reanchor_witness :
    (metSchedLoop 3 (setBPM 120 ⟨0, 60, true⟩) (9 / 10)).1 = [0, 1 / 2]
      ∧ (metSchedLoop 3 (setBPM 120 ⟨0, 60, true⟩) (9 / 10)).1[0]? = some 0
      ∧ (metSchedLoop 3 (setBPM 120 ⟨0, 60, true⟩) (9 / 10)).1[1]? = some (1 / 2)
      ∧ (1 / 2 : ℚ) = 0 + 60 / 120 := by
  have h := (metronome_setBPM_no_reanchor ⟨0, 60, true⟩ 120 (9 / 10) 3).2.2 0
    0 (1 / 2) (by norm_num [metSchedLoop, setBPM]) (by norm_num [metSchedLoop, setBPM])
  refine ⟨by norm_num [metSchedLoop, setBPM], by norm_num [metSchedLoop, setBPM],
    by norm_num [metSchedLoop, setBPM], h⟩

/-! ### The audio engine's active-source map (`audioEngine.ts`) -/

/-- Calls issued by `playNote` / `stopNote` to the Web Audio layer: starting
a fresh `AudioBufferSourceNode` or stopping (ramping out) a previously
started one.  Source nodes are identified by a creation counter. -/
inductive EngineCall where
  | start (id : ℕ) (key : String) (time : ℚ)
  | stop (id : ℕ) (key : String)
deriving DecidableEq, Repr

/-- The engine state relevant to note lifetime: the `activeSources` map
(a JS `Map` keyed by `` `${note}_${transpose}` ``, modelled as an
insertion-ordered association list), the source-node creation counter, the
loaded sample names (`buffers.keys()` in iteration order), and `isLoaded`. -/
structure AEState where
  activeSources : List (String × ℕ)
  nextId : ℕ
  buffers : List String
  loaded : Bool
deriving DecidableEq, Repr

/-- The `` `${note}_${transpose}` ``. -/
def mapKey (note : String) (transpose : ℤ) : String :=
  note ++ "_" ++ toString transpose

/-- The `Map.get`. -/
def srcGet (m : List (String × ℕ)) (k : String) : Option ℕ :=
  (m.find? (fun p => p.1 = k)).map Prod.snd

/-- The `Map.set`: replaces in place if the key exists, else appends. -/
def srcSet (m : List (String × ℕ)) (k : String) (v : ℕ) : List (String × ℕ) :=
  if m.any (fun p => p.1 = k) then m.map (fun p => if p.1 = k then (k, v) else p)
  else m ++ [(k, v)]

/-- The `Map.delete`. -/
def srcDel (m : List (String × ℕ)) (k : String) : List (String × ℕ) :=
  m.filter (fun p => ¬ p.1 = k)

/-- The `stopNote(note, transpose, when)`: if the key is active, ramp out and
stop that source and drop the map entry; otherwise do nothing.  (`when` only
shifts the ramp times, which the call abstracts over.) -/
def stopNote (st : AEState) (note : String) (transpose : ℤ) :
    List EngineCall × AEState :=
  let key := mapKey note transpose
  match srcGet st.activeSources key with
  | some id =>
    ([.stop id key], { st with activeSources := srcDel st.activeSources key })
  | none => ([], st)

/-- The `getClosestBuffer`: scan the loaded sample names, tracking the signed
distance with the smallest magnitude (`minDist` starts at `Infinity`,
`closestNote` at the falsy `''`). -/
def getClosestBuffer (buffers : List String) (midi : ℤ) : Option (String × ℤ) :=
  if buffers = [] then none
  else
    let best := buffers.foldl
      (fun (best : Option (ℤ × String)) note =>
        let dist := midi - getNoteNumber note
        match best with
        | none => some (dist, note)
        | some (md, bn) => if |dist| < |md| then some (dist, note) else some (md, bn))
      none
    match best with
    | some (md, bn) => if bn = "" then none else some (bn, md)
    | none => none

/-- The `playNote(note, transpose, velocity, when)`: when `when = 0` the engine
first stops any source already active under the same key, then (if the note
name resolves and a sample buffer exists) starts a fresh source and records
it in the map. -/
def playNote (st : AEState) (note : String) (transpose : ℤ) (w : ℚ) :
    List EngineCall × AEState :=
  if st.loaded = false then ([], st)
  else
    let key := mapKey note transpose
    let r := if w = 0 then stopNote st note transpose else ([], st)
    let baseMidi := getNoteNumber note
    if baseMidi = 0 then r
    else
      match getClosestBuffer r.2.buffers (baseMidi + transpose) with
      | none => r
      | some _ =>
        (r.1 ++ [.start r.2.nextId key w],
         { r.2 with activeSources := srcSet r.2.activeSources key r.2.nextId,
                    nextId := r.2.nextId + 1 })

theorem srcGet_cons (p : String × ℕ) (ps : List (String × ℕ)) (k : String) :
    srcGet (p :: ps) k = if p.1 = k then some p.2 else srcGet ps k := by
  by_cases h : p.1 = k
  · rw [srcGet, List.find?_cons_of_pos _ (by simpa using h), if_pos h]
    rfl
  · rw [srcGet, List.find?_cons_of_neg _ (by simpa using h), if_neg h]
    rfl

theorem srcGet_srcSet_self (m : List (String × ℕ)) (k : String) (v : ℕ) :
    srcGet (srcSet m k v) k = some v := by
  rw [srcSet]
  by_cases h : m.any (fun p => p.1 = k)
  · rw [if_pos h]
    induction m with
    | nil => simp at h
    | cons p ps ih =>
      by_cases hp : p.1 = k
      · simp [List.map_cons, if_pos hp, srcGet_cons]
      · have h' : ps.any (fun p => decide (p.1 = k)) := by
          simpa [hp] using h
        simp only [List.map_cons, if_neg hp, srcGet_cons]
        exact ih h'
  · rw [if_neg h]
    induction m with
    | nil => simp [srcGet_cons]
    | cons p ps ih =>
      have hp : ¬ p.1 = k := by
        intro hc
        exact h (by simp [hc])
      have h' : ¬ ps.any (fun p => decide (p.1 = k)) := by
        intro hc
        exact h (by simp [List.any_cons, hc])
      rw [List.cons_append, srcGet_cons, if_neg hp]
      exact ih h'

theorem srcGet_map_repl (m : List (String × ℕ)) (k k' : String) (v : ℕ)
    (h : k' ≠ k) :
    srcGet (m.map (fun p => if p.1 = k then (k, v) else p)) k' = srcGet m k' := by
  induction m with
  | nil => rfl
  | cons p ps ih =>
    by_cases hp : p.1 = k
    · have hp2 : ¬ (p.1 = k') := by
        rw [hp]; exact fun hc => h hc.symm
      have hk' : ¬ ((k, v).1 = k') := fun hc => h hc.symm
      simp only [List.map_cons, if_pos hp, srcGet_cons, if_neg hp2, if_neg hk']
      exact ih
    · simp only [List.map_cons, if_neg hp, srcGet_cons]
      by_cases hq : p.1 = k'
      · rw [if_pos hq, if_pos hq]
      · rw [if_neg hq, if_neg hq]
        exact ih

theorem srcGet_append_single (m : List (String × ℕ)) (k k' : String) (v : ℕ)
    (h : k' ≠ k) : srcGet (m ++ [(k, v)]) k' = srcGet m k' := by
  induction m with
  | nil =>
    have : ¬ ((k, v).1 = k') := fun hc => h hc.symm
    simp [List.nil_append, srcGet_cons, if_neg this, srcGet]
  | cons p ps ih =>
    rw [List.cons_append, srcGet_cons, srcGet_cons]
    by_cases hq : p.1 = k'
    · rw [if_pos hq, if_pos hq]
    · rw [if_neg hq, if_neg hq]
      exact ih

theorem srcGet_srcSet_other (m : List (String × ℕ)) (k k' : String) (v : ℕ)
    (h : k' ≠ k) : srcGet (srcSet m k v) k' = srcGet m k' := by
  rw [srcSet]
  by_cases hany : m.any (fun p => p.1 = k)
  · rw [if_pos hany]
    exact srcGet_map_repl m k k' v h
  · rw [if_neg hany]
    exact srcGet_append_single m k k' v h

theorem srcGet_srcDel_other (m : List (String × ℕ)) (k k' : String)
    (h : k' ≠ k) : srcGet (srcDel m k) k' = srcGet m k' := by
  induction m with
  | nil => rfl
  | cons p ps ih =>
    by_cases hp : p.1 = k
    · have hq : ¬ (p.1 = k') := by
        rw [hp]; exact fun hc => h hc.symm
      rw [srcDel, List.filter_cons_of_neg (by simpa using hp), srcGet_cons,
        if_neg hq]
      exact ih
    · rw [srcDel, List.filter_cons_of_pos (by simpa using hp), srcGet_cons,
        srcGet_cons]
      by_cases hq : p.1 = k'
      · rw [if_pos hq, if_pos hq]
      · rw [if_neg hq, if_neg hq]
        exact ih

theorem keys_srcSet (m : List (String × ℕ)) (k : String) (v : ℕ)
    (h : (m.map Prod.fst).Nodup) : ((srcSet m k v).map Prod.fst).Nodup := by
  rw [srcSet]
  by_cases hany : m.any (fun p => p.1 = k)
  · rw [if_pos hany]
    have : (m.map (fun p => if p.1 = k then (k, v) else p)).map Prod.fst
        = m.map Prod.fst := by
      rw [List.map_map]
      refine List.map_congr_left ?_
      intro p _
      by_cases hp : p.1 = k
      · simp [hp]
      · simp [hp]
    rw [this]
    exact h
  · rw [if_neg hany]
    have hk : k ∉ m.map Prod.fst := by
      intro hc
      rcases List.mem_map.1 hc with ⟨p, hp, hpk⟩
      exact hany (List.any_eq_true.2 ⟨p, hp, by simp [hpk]⟩)
    simp only [List.map_append, List.map_cons, List.map_nil]
    rw [List.nodup_append]
    refine ⟨h, by simp, ?_⟩
    intro a ha hb
    simp only [List.mem_singleton] at hb
    exact hk (hb ▸ ha)

theorem keys_srcDel (m : List (String × ℕ)) (k : String)
    (h : (m.map Prod.fst).Nodup) : ((srcDel m k).map Prod.fst).Nodup :=
  ((List.filter_sublist m).map Prod.fst).nodup h

/-- C10. The active-source map discipline of the audio engine: key
uniqueness is preserved by `playNote` and `stopNote`; an immediate
(`when = 0`) `playNote` on an already-sounding (note, transpose) key first
stops the prior source and then starts the fresh one, leaving the key bound
to the fresh source (replacement, not stacking); and both operations leave
every other key's binding untouched. -/
theorem playNote_replaces_sounding_note (st : AEState) (note : String)
    (transpose : ℤ) (w : ℚ)
    (hnodup : (st.activeSources.map Prod.fst).Nodup) :
    ((((playNote st note transpose w).2).activeSources.map Prod.fst).Nodup
      ∧ (((stopNote st note transpose).2).activeSources.map Prod.fst).Nodup)
    ∧ (∀ oldId r, srcGet st.activeSources (mapKey note transpose) = some oldId →
        st.loaded = true → getNoteNumber note ≠ 0 →
        getClosestBuffer st.buffers (getNoteNumber note + transpose) = some r →
        (playNote st note transpose 0).1
            = [.stop oldId (mapKey note transpose),
               .start st.nextId (mapKey note transpose) 0]
          ∧ srcGet ((playNote st note transpose 0).2).activeSources
              (mapKey note transpose) = some st.nextId)
    ∧ (∀ k, k ≠ mapKey note transpose →
        srcGet ((playNote st note transpose w).2).activeSources k
            = srcGet st.activeSources k
          ∧ srcGet ((stopNote st note transpose).2).activeSources k
            = srcGet st.activeSources k) := by
  have hstopKeys : (((stopNote st note transpose).2).activeSources.map Prod.fst).Nodup := by
    rw [stopNote]
    cases hg : srcGet st.activeSources (mapKey note transpose) with
    | none => exact hnodup
    | some id => exact keys_srcDel _ _ hnodup
  have hstopOther : ∀ k, k ≠ mapKey note transpose →
      srcGet ((stopNote st note transpose).2).activeSources k
        = srcGet st.activeSources k := by
    intro k hk
    rw [stopNote]
    cases hg : srcGet st.activeSources (mapKey note transpose) with
    | none => rfl
    | some id => exact srcGet_srcDel_other _ _ _ hk
  have hstopBuffers : ((stopNote st note transpose).2).buffers = st.buffers := by
    rw [stopNote]
    cases srcGet st.activeSources (mapKey note transpose) <;> rfl
  have hstopNextId : ((stopNote st note transpose).2).nextId = st.nextId := by
    rw [stopNote]
    cases srcGet st.activeSources (mapKey note transpose) <;> rfl
  refine ⟨⟨?_, hstopKeys⟩, ?_, ?_⟩
  · rw [playNote]
    by_cases hl : st.loaded = false
    · rw [if_pos hl]; exact hnodup
    · rw [if_neg hl]
      by_cases hb : getNoteNumber note = 0
      · simp only [hb, eq_self_iff_true, if_true]
        by_cases hw : w = 0
        · simp only [if_pos hw]; exact hstopKeys
        · simp only [if_neg hw]; exact hnodup
      · simp only [if_neg hb]
        by_cases hw : w = 0
        · simp only [if_pos hw]
          cases getClosestBuffer ((stopNote st note transpose).2).buffers
              (getNoteNumber note + transpose) with
          | none => exact hstopKeys
          | some r => exact keys_srcSet _ _ _ hstopKeys
        · simp only [if_neg hw]
          cases getClosestBuffer st.buffers (getNoteNumber note + transpose) with
          | none => exact hnodup
          | some r => exact keys_srcSet _ _ _ hnodup
  · intro oldId r hold hloaded hmidi hbuf
    have hl : ¬ st.loaded = false := by rw [hloaded]; exact Bool.noConfusion
    have hstop : stopNote st note transpose
        = ([.stop oldId (mapKey note transpose)],
           { st with activeSources := srcDel st.activeSources (mapKey note transpose) }) := by
      rw [stopNote, hold]
    rw [playNote, if_neg hl]
    simp only [if_neg hmidi, eq_self_iff_true, if_true]
    rw [hstopBuffers, hbuf, hstop]
    exact ⟨rfl, srcGet_srcSet_self _ _ _⟩
  · intro k hk
    refine ⟨?_, hstopOther k hk⟩
    rw [playNote]
    by_cases hl : st.loaded = false
    · rw [if_pos hl]
    · rw [if_neg hl]
      by_cases hb : getNoteNumber note = 0
      · simp only [hb, eq_self_iff_true, if_true]
        by_cases hw : w = 0
        · simp only [if_pos hw]; exact hstopOther k hk
        · simp only [if_neg hw]
      · simp only [if_neg hb]
        by_cases hw : w = 0
        · simp only [if_pos hw]
          cases getClosestBuffer ((stopNote st note transpose).2).buffers
              (getNoteNumber note + transpose) with
          | none => exact hstopOther k hk
          | some r =>
            rw [srcGet_srcSet_other _ _ _ _ hk]
            exact hstopOther k hk
        · simp only [if_neg hw]
          cases getClosestBuffer st.buffers (getNoteNumber note + transpose) with
          | none => rfl
          | some r => exact srcGet_srcSet_other _ _ _ _ hk

/-- Witness for C10: engine loaded with a C4 sample, E4 (transpose 0) already
sounding as source 7, `nextId = 8`; an immediate retrigger of E4 emits
`[stop 7, start 8]` and rebinds the key to 8, and a foreign key is
untouched. -/
theorem playNote_replaces_sounding_note_witness :
    ((([("E4_0", 7)] : List (String × ℕ)).map Prod.fst).Nodup
      ∧ srcGet [("E4_0", 7)] (mapKey "E4" 0) = some 7
      ∧ getNoteNumber "E4" ≠ 0
      ∧ getClosestBuffer ["C4"] (getNoteNumber "E4" + 0) = some ("C4", 4))
    ∧ (playNote ⟨[("E4_0", 7)], 8, ["C4"], true⟩ "E4" 0 0).1
        = [.stop 7 "E4_0", .start 8 "E4_0" 0]
    ∧ srcGet ((playNote ⟨[("E4_0", 7)], 8, ["C4"], true⟩ "E4" 0 0).2).activeSources
        "E4_0" = some 8 := by
  have h := (playNote_replaces_sounding_note ⟨[("E4_0", 7)], 8, ["C4"], true⟩
    "E4" 0 0 (by decide)).2.1 7 ("C4", 4) (by decide) rfl (by decide) (by decide)
  have hkey : mapKey "E4" 0 = "E4_0" := by decide
  refine ⟨⟨by decide, by decide, by decide, by decide⟩, ?_, ?_⟩
  · rw [← hkey]
    exact h.1
  · rw [← hkey]
    exact h.2

/-! ### The playback scheduler (`src/unnamed/part_010`, the audio-clock
revision of `App.tsx`)

The refs driving playback become one record; each timer/worker callback is an
action carrying the audio-clock reading at which it runs.  The worker that
drives `runAudioScheduler` is started exactly when `isPlayingBack` becomes
true and stopped when it becomes false, so a `tick`/`frame` arriving while
paused is a no-op in the trace semantics. -/

/-- The playback-related refs of `part_010`: `audioContextStartTimeRef`
(seconds), `playbackStartOffsetRef` (ms), `playbackSpeedRef`,
`audioCursorRef`, `isPlayingBack`, and the `elapsedTime` state maintained by
`visualLoop`. -/
structure PState where
  anchor : ℚ
  offsetMs : ℚ
  speed : ℚ
  cursor : ℕ
  playing : Bool
  elapsedMs : ℚ
deriving DecidableEq, Repr

/-- Calls handed to the audio engine by the scheduler: `playNote` scheduled
at an absolute clock time, `stopNote` scheduled at an absolute clock time,
and the immediate `stopNote` issued by `pausePlayback`. -/
inductive SchedCall where
  | play (note : String) (transpose : ℤ) (vel : Option ℕ) (time : ℚ)
  | stopAt (note : String) (transpose : ℤ) (time : ℚ)
  | stopNow (note : String) (transpose : ℤ)
deriving DecidableEq, Repr

/-- The `trackPlayTime = (now - audioContextStartTimeRef) * speed + startOffsetSec`. -/
def trackTimeSec (st : PState) (ctx : ℚ) : ℚ :=
  (ctx - st.anchor) * st.speed + st.offsetMs / 1000

/-- The `while` loop body of `runAudioScheduler`, walking the events from
the cursor: stop when the event lies beyond the lookahead window; an `on`
event is played only if its absolute fire time is not more than 50 ms stale
and practice mode is off; an `off` event is always forwarded.  Returns how
many events were consumed and the calls issued. -/
def schedLoop (practice : Bool) (ctx anchor offSec speed scheduleUntil : ℚ) :
    List AppEvent → ℕ × List SchedCall
  | [] => (0, [])
  | e :: rest =>
    if e.time / 1000 > scheduleUntil then (0, [])
    else
      let absPlay := anchor + (e.time / 1000 - offSec) / speed
      let calls : List SchedCall :=
        match e.type with
        | .on =>
          if absPlay > ctx - 1 / 20 then
            if practice then [] else [.play e.note e.transpose e.velocity absPlay]
          else []
        | .off => [.stopAt e.note e.transpose absPlay]
      let r := schedLoop practice ctx anchor offSec speed scheduleUntil rest
      (r.1 + 1, calls ++ r.2)

/-- The `pausePlayback` of `part_010`: stops the worker and the animation frame,
clears the visual sets, and issues exactly one immediate
`audioEngine.stopNote("C4", 0)` — regardless of which notes are sounding.
`elapsedTime` is left as the visual loop last wrote it. -/
def pausePlayback (st : PState) : List SchedCall × PState :=
  ([.stopNow "C4" 0], { st with playing := false })

/-- The `runAudioScheduler` of `part_010`: no-op on an empty recording;
otherwise schedule every event inside the lookahead window
(`trackPlayTime + 0.1 * speed`), advance the cursor past them, and if the
track time has passed the last event's time by more than the 1-second
trailing margin, stop the worker, pause, and reset `elapsedTime` and the
start offset to 0. -/
def runAudioScheduler (events : List AppEvent) (practice : Bool) (ctx : ℚ)
    (st : PState) : List SchedCall × PState :=
  match events with
  | [] => ([], st)
  | _ :: _ =>
    let offSec := st.offsetMs / 1000
    let trackTime := (ctx - st.anchor) * st.speed + offSec
    let scheduleUntil := trackTime + 1 / 10 * st.speed
    let r := schedLoop practice ctx st.anchor offSec st.speed scheduleUntil
      (events.drop st.cursor)
    let st1 := { st with cursor := st.cursor + r.1 }
    match events.getLast? with
    | some lastEv =>
      if trackTime > lastEv.time / 1000 + 1 then
        let p := pausePlayback st1
        (r.2 ++ p.1, { p.2 with elapsedMs := 0, offsetMs := 0 })
      else (r.2, st1)
    | none => (r.2, st1)

/-- The `changePlaybackSpeed`: while playing, re-anchor so that
`(now - newAnchor) * newSpeed` equals `(now - anchor) * oldSpeed`; then adopt
the new speed. -/
def changePlaybackSpeed (ctx s : ℚ) (st : PState) : PState :=
  let st1 :=
    if st.playing then { st with anchor := ctx - ((ctx - st.anchor) * st.speed) / s }
    else st
  { st1 with speed := s }

/-- The `elapsedTime` update of `visualLoop`:
`t > 0 ? t : 0` with `t = (now - anchor) * speed * 1000 + offsetMs`. -/
def visualFrame (ctx : ℚ) (st : PState) : PState :=
  { st with elapsedMs := max 0 ((ctx - st.anchor) * st.speed * 1000 + st.offsetMs) }

/-- The `startPlayback` of `part_010`: no-op on an empty recording; restart from
0 when `elapsedTime` has reached the last event's time, otherwise resume
from `elapsedTime`, fast-forwarding the cursor to the first event at or
after it; then re-anchor to the current clock and start the worker. -/
def startPlayback (events : List AppEvent) (ctx : ℚ) (st : PState) : PState :=
  match events.getLast? with
  | none => st
  | some lastEv =>
    let st1 :=
      if st.elapsedMs ≥ lastEv.time then
        { st with elapsedMs := 0, offsetMs := 0, cursor := 0 }
      else
        { st with offsetMs := st.elapsedMs,
                  cursor := (events.takeWhile (fun e => e.time < st.elapsedMs)).length }
    { st1 with anchor := ctx, playing := true }

/-- The timer/worker callbacks and UI commands that drive the scheduler. -/
inductive PAct where
  | tick (ctx : ℚ)
  | frame (ctx : ℚ)
  | setSpeed (ctx : ℚ) (s : ℚ)
  | pause
  | start (ctx : ℚ)
deriving DecidableEq, Repr

/-- Trace-level predicate: the action is neither `pause` nor `start`. -/
def noPauseStart : PAct → Bool
  | .pause => false
  | .start _ => false
  | _ => true

/-- One callback: `tick` and `frame` only run while the worker/animation
loop is alive, i.e. while `isPlayingBack`. -/
def stepP (events : List AppEvent) (practice : Bool) (st : PState) :
    PAct → List SchedCall × PState
  | .tick ctx => if st.playing then runAudioScheduler events practice ctx st else ([], st)
  | .frame ctx => if st.playing then ([], visualFrame ctx st) else ([], st)
  | .setSpeed ctx s => ([], changePlaybackSpeed ctx s st)
  | .pause => pausePlayback st
  | .start ctx => ([], startPlayback events ctx st)

/-- Run a trace of callbacks, collecting the engine calls and, for each
step, the event indices the cursor moved past (`range' cursor (Δcursor)`). -/
def runP (events : List AppEvent) (practice : Bool) :
    PState → List PAct → List SchedCall × List ℕ × PState
  | st, [] => ([], [], st)
  | st, a :: rest =>
    let r := stepP events practice st a
    let idxs := List.range' st.cursor (r.2.cursor - st.cursor)
    let rr := runP events practice r.2 rest
    (r.1 ++ rr.1, idxs ++ rr.2.1, rr.2.2)

def isPlayCall : SchedCall → Bool
  | .play _ _ _ _ => true
  | _ => false

/-- The playback state of the wall-clock revision (`App.tsx`):
`isPlayingBack`, `elapsedTime`, and the `activePlaybackNotes` set of
currently sounding `(note, transpose)` pairs. -/
structure AppPState where
  playing : Bool
  elapsedMs : ℚ
  activeNotes : List (String × ℤ)
deriving DecidableEq, Repr

/-- The `pausePlayback` of `App.tsx`: clears the pending timeouts, then issues
one immediate `stopNote` per entry of `activePlaybackNotes`, and clears the
set; `elapsedTime` is left untouched. -/
def appPausePlayback (st : AppPState) : List SchedCall × AppPState :=
  (st.activeNotes.map (fun p => .stopNow p.1 p.2),
   { st with playing := false, activeNotes := [] })

theorem runAudioScheduler_cursor_ge (events : List AppEvent) (practice : Bool)
    (ctx : ℚ) (st : PState) :
    st.cursor ≤ (runAudioScheduler events practice ctx st).2.cursor := by
  cases events with
  | nil =>
    rw [runAudioScheduler]
  | cons e es =>
    rw [runAudioScheduler]
    dsimp only
    cases h : (e :: es).getLast? with
    | none => simp
    | some lastEv =>
      dsimp only
      by_cases hc : (ctx - st.anchor) * st.speed + st.offsetMs / 1000
          > lastEv.time / 1000 + 1
      · rw [if_pos hc]
        simp [pausePlayback]
      · rw [if_neg hc]
        simp

theorem stepP_cursor_ge (events : List AppEvent) (practice : Bool)
    (st : PState) (a : PAct) (h : noPauseStart a = true) :
    st.cursor ≤ (stepP events practice st a).2.cursor := by
  cases a with
  | tick ctx =>
    rw [stepP]
    by_cases hp : st.playing
    · rw [if_pos hp]
      exact runAudioScheduler_cursor_ge events practice ctx st
    · rw [if_neg hp]
  | frame ctx =>
    rw [stepP]
    by_cases hp : st.playing
    · rw [if_pos hp]
      exact le_refl _
    · rw [if_neg hp]
  | setSpeed ctx s =>
    rw [stepP, changePlaybackSpeed]
    by_cases hp : st.playing
    · rw [if_pos hp]
    · rw [if_neg hp]
  | pause => exact absurd h (by rw [noPauseStart]; exact Bool.noConfusion)
  | start ctx => exact absurd h (by rw [noPauseStart]; exact Bool.noConfusion)

theorem range'_glue (a b c : ℕ) (h1 : a ≤ b) (h2 : b ≤ c) :
    List.range' a (b - a) ++ List.range' b (c - b) = List.range' a (c - a) := by
  have happ := List.range'_append a (b - a) (c - b) 1
  have heq : a + 1 * (b - a) = b := by omega
  rw [heq] at happ
  rw [happ]
  congr 1
  omega

theorem runP_indices (events : List AppEvent) (practice : Bool) :
    ∀ (acts : List PAct) (st0 : PState),
      (∀ a ∈ acts, noPauseStart a = true) →
      (runP events practice st0 acts).2.1
          = List.range' st0.cursor
              ((runP events practice st0 acts).2.2.cursor - st0.cursor)
        ∧ st0.cursor ≤ (runP events practice st0 acts).2.2.cursor := by
  intro acts
  induction acts with
  | nil =>
    intro st0 _
    constructor
    · rw [runP]
      simp
    · exact le_refl _
  | cons a rest ih =>
    intro st0 hall
    have ha : noPauseStart a = true := hall a (List.mem_cons_self _ _)
    have hrest : ∀ b ∈ rest, noPauseStart b = true :=
      fun b hb => hall b (List.mem_cons_of_mem _ hb)
    have hstep := stepP_cursor_ge events practice st0 a ha
    have hih := ih (stepP events practice st0 a).2 hrest
    rw [runP]
    refine ⟨?_, le_trans hstep hih.2⟩
    dsimp only
    rw [hih.1]
    exact range'_glue _ _ _ hstep hih.2

/-- C2, amended. Over any trace of scheduler ticks, visual frames and
speed changes — no pause/resume — the event indices handed to the sound
collaborator form exactly the contiguous range the cursor advanced over:
each event is handed at most once and none inside the covered window is
skipped; and every `setSpeed` re-anchoring leaves the observable track time
continuous at the change instant.  (Across a pause/resume cycle the
exactly-once part fails — see `pause_resume_double_fire`.) -/
theorem scheduler_exactly_once_and_speed_continuous :
    (∀ (events : List AppEvent) (practice : Bool) (st0 : PState)
        (acts : List PAct),
      (∀ a ∈ acts, noPauseStart a = true) →
      (runP events practice st0 acts).2.1
          = List.range' st0.cursor
              ((runP events practice st0 acts).2.2.cursor - st0.cursor))
    ∧ (∀ (st : PState) (ctx s : ℚ), st.playing = true → s ≠ 0 →
        trackTimeSec (changePlaybackSpeed ctx s st) ctx = trackTimeSec st ctx) := by
  constructor
  · intro events practice st0 acts hall
    exact (runP_indices events practice acts st0 hall).1
  · intro st ctx s hp hs
    rw [trackTimeSec, trackTimeSec, changePlaybackSpeed]
    rw [if_pos (by rw [hp])]
    dsimp only
    rw [sub_sub_cancel, div_mul_cancel₀ _ hs]

/-- Witness for C2 (amended), at a one-event recording with one tick and one
speed change: the handed indices are exactly `[0]`, and the re-anchoring at
speed 2 keeps the track time. -/
theorem scheduler_exactly_once_and_speed_continuous_witness :
    (∀ a ∈ [PAct.tick 0], noPauseStart a = true)
      ∧ (runP [⟨50, .on, "C4", 0, some 100⟩] false ⟨0, 0, 1, 0, true, 0⟩
          [PAct.tick 0]).2.1
          = List.range' 0
              ((runP [⟨50, .on, "C4", 0, some 100⟩] false ⟨0, 0, 1, 0, true, 0⟩
                [PAct.tick 0]).2.2.cursor - 0)
      ∧ (runP [⟨50, .on, "C4", 0, some 100⟩] false ⟨0, 0, 1, 0, true, 0⟩
          [PAct.tick 0]).2.2.cursor = 1
      ∧ ((⟨3, 0, 1, 0, true, 0⟩ : PState).playing = true ∧ (2 : ℚ) ≠ 0
          ∧ trackTimeSec (changePlaybackSpeed 5 2 ⟨3, 0, 1, 0, true, 0⟩) 5
            = trackTimeSec ⟨3, 0, 1, 0, true, 0⟩ 5) := by
  refine ⟨by decide,
    scheduler_exactly_once_and_speed_continuous.1 _ false _ _ (by decide),
    by with_unfolding_all rfl,
    rfl, by norm_num,
    scheduler_exactly_once_and_speed_continuous.2 _ 5 2 rfl (by norm_num)⟩

/-- C2, counterexample. Pausing right after an event inside the
lookahead window has been scheduled, then resuming, hands the same event to
the sound collaborator a second time: the single On event of this recording
produces two `playNote` calls across the trace
start → tick(4.96 s) → frame(5 s) → pause → start(6 s) → tick(6 s). -/
theorem pause_resume_double_fire :
    (runP [⟨5050, .on, "C4", 0, some 100⟩] false ⟨0, 0, 1, 0, false, 0⟩
        [.start 0, .tick (124 / 25), .frame 5, .pause, .start 6, .tick 6]).1.countP
        isPlayCall = 2
      ∧ [(⟨5050, .on, "C4", 0, some 100⟩ : AppEvent)].countP
          (fun e => decide (e.type = .on)) = 1 := by
  constructor
  · with_unfolding_all rfl
  · rfl

/-- C4, amended. When the track time passes the last event's timestamp
by the 1-second trailing margin, the audio-clock scheduler stops its loop
and pauses — but it also resets the playback position: both `elapsedTime`
and the start offset become 0 (the caller is *not* left parked at the end).
The wall-clock revision's end-of-playback handler (`App.tsx`), by contrast,
only pauses and leaves `elapsedTime` unchanged. -/
theorem scheduler_finish_resets_position (events : List AppEvent)
    (practice : Bool) (ctx : ℚ) (st : PState) (lastEv : AppEvent)
    (hl : events.getLast? = some lastEv)
    (hcond : (ctx - st.anchor) * st.speed + st.offsetMs / 1000
        > lastEv.time / 1000 + 1) :
    ((runAudioScheduler events practice ctx st).2.playing = false
        ∧ (runAudioScheduler events practice ctx st).2.elapsedMs = 0
        ∧ (runAudioScheduler events practice ctx st).2.offsetMs = 0)
      ∧ (∀ ast : AppPState, (appPausePlayback ast).2.elapsedMs = ast.elapsedMs
          ∧ (appPausePlayback ast).2.playing = false) := by
  refine ⟨?_, fun ast => ⟨rfl, rfl⟩⟩
  cases events with
  | nil => exact absurd hl (by rw [List.getLast?_nil]; exact Option.noConfusion)
  | cons e es =>
    rw [runAudioScheduler]
    dsimp only
    rw [hl]
    dsimp only
    rw [if_pos hcond]
    exact ⟨rfl, rfl, rfl⟩

/-- Witness for C4 (amended): a finished one-event recording with the
position at 6000 ms is reset to 0 by the scheduler tick. -/
theorem scheduler_finish_resets_position_witness :
    ([(⟨1000, .on, "C4", 0, some 100⟩ : AppEvent)].getLast?
        = some ⟨1000, .on, "C4", 0, some 100⟩
      ∧ ((3 : ℚ) - (⟨0, 0, 1, 1, true, 6000⟩ : PState).anchor)
            * (⟨0, 0, 1, 1, true, 6000⟩ : PState).speed
          + (⟨0, 0, 1, 1, true, 6000⟩ : PState).offsetMs / 1000
          > (1000 : ℚ) / 1000 + 1)
      ∧ (runAudioScheduler [⟨1000, .on, "C4", 0, some 100⟩] false 3
          ⟨0, 0, 1, 1, true, 6000⟩).2.playing = false
      ∧ (runAudioScheduler [⟨1000, .on, "C4", 0, some 100⟩] false 3
          ⟨0, 0, 1, 1, true, 6000⟩).2.elapsedMs = 0
      ∧ (runAudioScheduler [⟨1000, .on, "C4", 0, some 100⟩] false 3
          ⟨0, 0, 1, 1, true, 6000⟩).2.offsetMs = 0 := by
  have h := scheduler_finish_resets_position [⟨1000, .on, "C4", 0, some 100⟩]
    false 3 ⟨0, 0, 1, 1, true, 6000⟩ ⟨1000, .on, "C4", 0, some 100⟩ rfl
    (by norm_num)
  exact ⟨⟨rfl, by norm_num⟩, h.1.1, h.1.2.1, h.1.2.2⟩

/-- C4, counterexample. The claim says the scheduler leaves the position
unchanged on finishing; in the audio-clock revision it does not: a position
of 6000 ms comes out as 0. -/
theorem scheduler_finish_counterexample :
    (⟨0, 0, 1, 1, true, 6000⟩ : PState).elapsedMs = 6000
      ∧ (runAudioScheduler [⟨1000, .on, "C4", 0, some 100⟩] false 3
          ⟨0, 0, 1, 1, true, 6000⟩).2.elapsedMs = 0
      ∧ (runAudioScheduler [⟨1000, .on, "C4", 0, some 100⟩] false 3
          ⟨0, 0, 1, 1, true, 6000⟩).2.playing = false := by
  refine ⟨rfl, ?_, ?_⟩ <;> with_unfolding_all rfl

/-- C1. `pausePlayback` of the audio-clock revision issues exactly one
stop — for the hard-coded note "C4" with transpose 0 — no matter what is
sounding; fed to the audio engine while only E4 is sounding, that stop is a
no-op and E4 keeps sounding.  The wall-clock revision's `pausePlayback`
stops each sounding note, which is what the spec requires. -/
theorem pause_stops_only_C4 :
    (∀ st : PState, (pausePlayback st).1 = [.stopNow "C4" 0])
      ∧ (stopNote ⟨[("E4_0", 5)], 6, ["C4"], true⟩ "C4" 0).1 = []
      ∧ (stopNote ⟨[("E4_0", 5)], 6, ["C4"], true⟩ "C4" 0).2.activeSources
          = [("E4_0", 5)]
      ∧ (appPausePlayback ⟨true, 5000, [("E4", 0)]⟩).1 = [.stopNow "E4" 0] := by
  refine ⟨fun st => rfl, ?_, ?_, rfl⟩ <;> decide

end Keypiano
